import Mathlib

/-!
Shallow embedding of the Simple Python Fixed-Point Module (SPFPM),
`FixedPoint.py`, together with proofs about its specification claims.

Python's arbitrary-precision integers are modelled by `Int`, Python's
`Fraction`/exact numeric inputs by `Rat`, and Python exceptions by an
explicit result type `Outcome`.  Data-dependent `while` loops are modelled
with an explicit fuel parameter; exhausting the fuel yields the separate
result `Outcome.fuelout`, so every theorem about a loop's result is about a
run that actually terminated, as the Python run would.
-/

/-- Python's left shift on arbitrary-precision integers: `x << k = x * 2^k`. -/
def pyShiftL (x : Int) (k : Nat) : Int := x * 2 ^ k

/-- Python's arithmetic right shift on arbitrary-precision integers:
`x >> k` is floor division by `2^k`. -/
def pyShiftR (x : Int) (k : Nat) : Int := Int.fdiv x (2 ^ k)

/-- Python's bitwise `|` on arbitrary-precision integers, two's-complement
on negative numbers, which is exactly `Int.lor`. -/
def pyOr (x y : Int) : Int := Int.lor x y

/-- Python's floor division `//` on integers. -/
def pyFloorDiv (x y : Int) : Int := Int.fdiv x y

/-- Python's `int(...)` applied to an exact rational: truncation toward
zero, i.e. the numerator `tdiv` the (positive) denominator. -/
def pyIntOfRat (q : Rat) : Int := Int.tdiv q.num q.den

/-- The exceptions raised by SPFPM operations (`FXexception` subclasses in
`FixedPoint.py`), plus Python's built-in `ZeroDivisionError` which escapes
from `//` with a zero divisor. -/
inductive FXexception : Type where
  | FXdomainError
  | FXoverflowError
  | FXfamilyError
  | FXbrokenError
  | ZeroDivisionError
deriving DecidableEq

/-- Result of running a piece of SPFPM code: a value, a raised exception,
or exhaustion of the fuel bounding a data-dependent loop. -/
inductive Outcome (α : Type) : Type where
  | ok (val : α)
  | exn (e : FXexception)
  | fuelout
deriving DecidableEq

def Outcome.bind {α β : Type} : Outcome α → (α → Outcome β) → Outcome β
  | .ok a, f => f a
  | .exn e, _ => .exn e
  | .fuelout, _ => .fuelout

instance : Monad Outcome where
  pure := Outcome.ok
  bind := Outcome.bind

@[simp] theorem Outcome.bind_eq {α β : Type} (x : Outcome α) (f : α → Outcome β) :
    x >>= f = Outcome.bind x f := rfl

@[simp] theorem Outcome.pure_eq {α : Type} (a : α) : (pure a : Outcome α) = Outcome.ok a := rfl

@[simp] theorem Outcome.bind_ok {α β : Type} (a : α) (f : α → Outcome β) :
    Outcome.bind (Outcome.ok a) f = f a := rfl

@[simp] theorem Outcome.bind_exn {α β : Type} (e : FXexception) (f : α → Outcome β) :
    Outcome.bind (Outcome.exn e) f = Outcome.exn e := rfl

@[simp] theorem Outcome.bind_fuelout {α β : Type} (f : α → Outcome β) :
    Outcome.bind (Outcome.fuelout) f = Outcome.fuelout := rfl

/-- Source `FXfamily`: descriptor of the accuracy of a set of fixed-point numbers.
`fid` models Python object identity: each runtime `FXfamily` instance gets
its own `fid`, so the Python `is` test between two families is equality of
the whole structure, and two distinct instances with equal configuration
compare `is`-different because their `fid`s differ. -/
structure FXfamily : Type where
  fid : Nat
  fraction_bits : Nat
  integer_bits : Option Int
deriving DecidableEq

/-- Source `self.scale = 1 << n_bits`. -/
def FXfamily.scale (self : FXfamily) : Int := pyShiftL 1 self.fraction_bits

/-- Source `self._roundup = 1 << (n_bits - 1)`. -/
def FXfamily.roundup (self : FXfamily) : Int := pyShiftL 1 (self.fraction_bits - 1)

/-- The `validate` closure installed by `FXfamily.__init__`: when
`n_intbits` is given and `1 << (n_bits + n_intbits - 1)` is computable
(non-negative shift), out-of-range scaled values raise `FXoverflowError`;
otherwise (no `n_intbits`, or the shift raises and the bare `except:`
swallows it) validation is a no-op. -/
def FXfamily.validate (self : FXfamily) (scaledval : Int) : Bool :=
  match self.integer_bits with
  | none => true
  | some n_intbits =>
      if 0 ≤ (self.fraction_bits : Int) + n_intbits - 1 then
        let thresh : Int := pyShiftL 1 ((self.fraction_bits : Int) + n_intbits - 1).toNat
        if scaledval ≥ thresh ∨ scaledval < -thresh then false else true
      else true

/-- Python `==` between families (`FXfamily.__eq__`): equality of
`fraction_bits` alone. -/
def FXfamily.beq (self other : FXfamily) : Bool :=
  decide (self.fraction_bits = other.fraction_bits)

/-- Source `FXfamily.Convert`: rescale `other_val` from `other`'s number of
fraction bits into `self`'s. -/
def FXfamily.Convert (self other : FXfamily) (other_val : Int) : Int :=
  let bit_inc : Int := (self.fraction_bits : Int) - (other.fraction_bits : Int)
  if bit_inc = 0 then
    other_val
  else if bit_inc > 0 then
    let new_val := pyShiftL other_val bit_inc.toNat
    if other_val > 0 then
      pyOr new_val (pyShiftL 1 (bit_inc.toNat - 1))
    else
      pyOr new_val (pyShiftL 1 (bit_inc.toNat - 1) - 1)
  else
    pyShiftR other_val (-bit_inc).toNat

/-- Source `FXnum`: a binary fixed-point number, a scaled integer tagged with its
family. -/
structure FXnum : Type where
  family : FXfamily
  scaledval : Int
deriving DecidableEq

/-- Construction of an `FXnum` from an already-scaled value
(`FXnum(family=fam, scaled_value=v)`); runs `family.validate`. -/
def FXnum.mkScaled (family : FXfamily) (scaled_value : Int) : Outcome FXnum :=
  if family.validate scaled_value then .ok ⟨family, scaled_value⟩
  else .exn .FXoverflowError

/-- Construction of an `FXnum` from a plain (non-`FXnum`) numeric value:
`self.scaledval = int(val * family.scale)`, then validation. -/
def FXnum.ofRat (val : Rat) (family : FXfamily) : Outcome FXnum :=
  FXnum.mkScaled family (pyIntOfRat (val * (family.scale : Rat)))

/-- Construction of an `FXnum` from another `FXnum`
(`self.scaledval = family.Convert(val.family, val.scaledval)`), then
validation. -/
def FXnum.ofFX (val : FXnum) (family : FXfamily) : Outcome FXnum :=
  FXnum.mkScaled family (family.Convert val.family val.scaledval)

/-- Source `self.family.unity`, i.e. `FXnum(1, self)`. -/
def FXfamily.unity (self : FXfamily) : Outcome FXnum := FXnum.ofRat 1 self

/-- Source `self.family.zero`, i.e. `FXnum(0, self)`. -/
def FXfamily.zero (self : FXfamily) : Outcome FXnum := FXnum.ofRat 0 self

/-- The operand of a Python binary operation: either another `FXnum` or a
plain number (int/float/Fraction, modelled exactly as a rational). -/
inductive PyOperand : Type where
  | fx (x : FXnum)
  | num (q : Rat)
deriving DecidableEq

/-- Source `FXnum._CastOrFail_`: an `FXnum` operand must be of the *same family
instance* (Python `is`); any other number is promoted via `FXnum(other,
self.family)`. -/
def FXnum.castOrFail (self : FXnum) (other : PyOperand) : Outcome FXnum :=
  match other with
  | .fx o => if self.family = o.family then .ok o else .exn .FXfamilyError
  | .num q => FXnum.ofRat q self.family

/-- Source `FXnum.__neg__`: negate the scaled value (re-validated on construction). -/
def FXnum.neg (self : FXnum) : Outcome FXnum :=
  FXnum.mkScaled self.family (-self.scaledval)

/-- Source `FXnum.__abs__`. -/
def FXnum.abs (self : FXnum) : Outcome FXnum :=
  if self.scaledval < 0 then self.neg else .ok self

/-- Source `FXnum.__add__`. -/
def FXnum.add (self : FXnum) (other : PyOperand) : Outcome FXnum := do
  let o ← self.castOrFail other
  FXnum.mkScaled self.family (self.scaledval + o.scaledval)

/-- Source `FXnum.__sub__`. -/
def FXnum.sub (self : FXnum) (other : PyOperand) : Outcome FXnum := do
  let o ← self.castOrFail other
  FXnum.mkScaled self.family (self.scaledval - o.scaledval)

/-- Source `FXnum.__mul__`: `(a*b + roundup) // scale`. -/
def FXnum.mul (self : FXnum) (other : PyOperand) : Outcome FXnum := do
  let o ← self.castOrFail other
  FXnum.mkScaled self.family
    (pyFloorDiv (self.scaledval * o.scaledval + self.family.roundup) self.family.scale)

/-- Source `FXnum.__rmul__`: `FXnum(other, self.family) * self`, for `plain * fx`. -/
def FXnum.rmul (self : FXnum) (other : Rat) : Outcome FXnum := do
  let promoted ← FXnum.ofRat other self.family
  promoted.mul (.fx self)

/-- Source `FXnum.__truediv__`: `(a*scale + roundup) // b`; a zero divisor makes
Python's `//` raise `ZeroDivisionError`. -/
def FXnum.truediv (self : FXnum) (other : PyOperand) : Outcome FXnum := do
  let o ← self.castOrFail other
  if o.scaledval = 0 then .exn .ZeroDivisionError
  else
    FXnum.mkScaled self.family
      (pyFloorDiv (self.scaledval * self.family.scale + self.family.roundup) o.scaledval)

/-- Source `FXnum.__rtruediv__`: `FXnum(other, self.family) / self`. -/
def FXnum.rtruediv (self : FXnum) (other : Rat) : Outcome FXnum := do
  let promoted ← FXnum.ofRat other self.family
  promoted.truediv (.fx self)

/-- Source `FXnum.__lshift__`. -/
def FXnum.lshift (self : FXnum) (shift : Nat) : Outcome FXnum :=
  FXnum.mkScaled self.family (pyShiftL self.scaledval shift)

/-- Source `FXnum.__rshift__`. -/
def FXnum.rshift (self : FXnum) (shift : Nat) : Outcome FXnum :=
  FXnum.mkScaled self.family (pyShiftR self.scaledval shift)

/-- Source `FXnum.__eq__`: compare scaled values and (Python-`==`) families, after
`_CastOrFail_`. -/
def FXnum.eq (self : FXnum) (other : PyOperand) : Outcome Bool := do
  let o ← self.castOrFail other
  pure (decide (self.scaledval = o.scaledval) && self.family.beq o.family)

/-- Source `FXnum.__ne__`. -/
def FXnum.ne (self : FXnum) (other : PyOperand) : Outcome Bool := do
  let o ← self.castOrFail other
  pure (decide (self.scaledval ≠ o.scaledval))

/-- Source `FXnum.__ge__`. -/
def FXnum.ge (self : FXnum) (other : PyOperand) : Outcome Bool := do
  let o ← self.castOrFail other
  pure (decide (self.scaledval ≥ o.scaledval))

/-- Source `FXnum.__gt__`. -/
def FXnum.gt (self : FXnum) (other : PyOperand) : Outcome Bool := do
  let o ← self.castOrFail other
  pure (decide (self.scaledval > o.scaledval))

/-- Source `FXnum.__le__`. -/
def FXnum.le (self : FXnum) (other : PyOperand) : Outcome Bool := do
  let o ← self.castOrFail other
  pure (decide (self.scaledval ≤ o.scaledval))

/-- Source `FXnum.__lt__`. -/
def FXnum.lt (self : FXnum) (other : PyOperand) : Outcome Bool := do
  let o ← self.castOrFail other
  pure (decide (self.scaledval < o.scaledval))

/-- Source `FXnum.__int__`: cast to integer, `scaledval // scale` for non-negative
scaled values and `(scaledval + scale - 1) // scale` for negative ones. -/
def FXnum.toInt (self : FXnum) : Int :=
  if self.scaledval ≥ 0 then
    pyFloorDiv self.scaledval self.family.scale
  else
    pyFloorDiv (self.scaledval + self.family.scale - 1) self.family.scale

/-- The crude-initial-approximation loop of `FXnum.sqrt`:
`while val > 0: val >>= 2; rt.scaledval <<= 1` (the doubling of the working
root mutates `rt.scaledval` directly, bypassing validation).  The loop
quarters `val` each pass, so running it with a step counter of `val.toNat`
executes it to completion exactly as Python does. -/
def sqrtScan : Nat → Int → Int → Int
  | 0, _, rts => rts
  | steps+1, val, rts =>
      if 0 < val then sqrtScan steps (pyShiftR val 2) (pyShiftL rts 1) else rts

/-- The Newton-iteration loop of `FXnum.sqrt`:
`delta = (rt - self/rt) >> 1; rt -= delta; if delta.scaledval == 0: break`. -/
def sqrtLoop : Nat → FXnum → FXnum → Outcome FXnum
  | 0, _, _ => .fuelout
  | fuel+1, self, rt => do
      let q ← self.truediv (.fx rt)
      let d ← rt.sub (.fx q)
      let delta ← d.rshift 1
      let rt2 ← rt.sub (.fx delta)
      if delta.scaledval = 0 then .ok rt2 else sqrtLoop fuel self rt2

/-- Source `FXnum.sqrt`: square root of a non-negative number by a crude
power-of-two estimate refined by Newton iteration; negative input raises
`FXdomainError`. -/
def FXnum.sqrt (fuel : Nat) (self : FXnum) : Outcome FXnum :=
  if self.scaledval < 0 then .exn .FXdomainError
  else if self.scaledval = 0 then .ok self
  else do
    let rt0 ← FXnum.mkScaled self.family (pyShiftL 1 (self.family.fraction_bits / 2))
    let rts := sqrtScan self.scaledval.toNat self.scaledval rt0.scaledval
    sqrtLoop fuel self ⟨self.family, rts⟩

/-- The `while nb > 0: augbits += 1; nb >>= 1` bit-counting loop of
`FXfamily.__init__`; halving `nb` each pass, `n` step-counter passes always
run it to completion. -/
def bitcountAux : Nat → Nat → Nat
  | 0, _ => 0
  | steps+1, n => if n = 0 then 0 else bitcountAux steps (n / 2) + 1

/-- Number of binary digits of `n` (the bit-counting loop run to
completion). -/
def bitcount (n : Nat) : Nat := bitcountAux n n

/-- Source `self._augbits`: extra bits used when computing cached constants. -/
def FXfamily.augbits (self : FXfamily) : Nat := 4 + bitcount self.fraction_bits

/-- The fresh augmented-precision family `FXfamily(fraction_bits + augbits)`
constructed inside the cached-constant accessors.  Its `fid` is irrelevant:
being a fresh instance it is only ever used for operations among its own
values. -/
def FXfamily.augFamily (self : FXfamily) : FXfamily :=
  ⟨self.fid, self.fraction_bits + self.augbits, none⟩

/-- The series loop of `FXnum._rawexp`:
`term *= self/idx; ex += term; idx += 1; if term.scaledval == 0: break`. -/
def rawexpLoop : Nat → FXnum → FXnum → FXnum → Nat → Outcome FXnum
  | 0, _, _, _, _ => .fuelout
  | fuel+1, self, ex, term, idx => do
      let q ← self.truediv (.num idx)
      let term2 ← term.mul (.fx q)
      let ex2 ← ex.add (.fx term2)
      if term2.scaledval = 0 then .ok ex2
      else rawexpLoop fuel self ex2 term2 (idx + 1)

/-- Source `FXnum._rawexp`: brute-force Maclaurin series for the exponential of a
smallish number. -/
def FXnum.rawexp (fuel : Nat) (self : FXnum) : Outcome FXnum := do
  let ex ← self.family.unity
  let term ← self.family.unity
  rawexpLoop fuel self ex term 1

/-- Source `FXfamily.exp1`: the cached constant `e`, computed brute-force in an
augmented-precision family via `exp(1/4)` raised to the fourth power.
(The first series evaluation is a dead store in the source; it is kept.) -/
def FXfamily.exp1 (fuel : Nat) (self : FXfamily) : Outcome FXnum := do
  let augfamily := self.augFamily
  let one ← FXnum.ofRat 1 augfamily
  let _augexp ← one.rawexp fuel
  let four ← FXnum.ofRat 4 augfamily
  let arg ← four.rtruediv 1
  let q0 ← arg.rawexp fuel
  let q1 ← q0.mul (.fx q0)
  let augexp ← q1.mul (.fx q1)
  FXnum.ofFX augexp self

/-- The series loop of `FXnum._rawlog`:
`lg += term/idx; term *= z2; idx += 2; if term.scaledval == 0: break`. -/
def rawlogLoop : Nat → FXnum → FXnum → FXnum → Nat → Outcome FXnum
  | 0, _, _, _, _ => .fuelout
  | fuel+1, z2, lg, term, idx => do
      let q ← term.truediv (.num idx)
      let lg2 ← lg.add (.fx q)
      let term2 ← term.mul (.fx z2)
      if term2.scaledval = 0 then .ok lg2
      else rawlogLoop fuel z2 lg2 term2 (idx + 2)

/-- Source `FXnum._rawlog`: logarithm series for a number close to one, based on
`z = (self-1)/(self+1)` (or `z = self/(self+2)` in delta form). -/
def FXnum.rawlog (fuel : Nat) (self : FXnum) (isDelta : Bool) : Outcome FXnum := do
  let lg ← self.family.zero
  let z ← if isDelta then do
      let d ← self.add (.num 2)
      self.truediv (.fx d)
    else do
      let a ← self.sub (.num 1)
      let b ← self.add (.num 1)
      a.truediv (.fx b)
  let z2 ← z.mul (.fx z)
  let term ← z.rmul 2
  rawlogLoop fuel z2 lg term 1

/-- Source `FXfamily.log2`: the cached constant `ln 2`, via
`log(2^19/3^12) + 6*log(1 + 1/8)` in an augmented-precision family.
(The direct series evaluation of `log 2` is a dead store in the source;
it is kept.) -/
def FXfamily.log2 (fuel : Nat) (self : FXfamily) : Outcome FXnum := do
  let augfamily := self.augFamily
  let two ← FXnum.ofRat 2 augfamily
  let _auglog2 ← two.rawlog fuel false
  let three12 : Rat := (9 * 9 * 9) * (9 * 9 * 9)
  let two19 : Rat := ((pyShiftL 1 19 : Int) : Rat)
  let n1 ← FXnum.ofRat (two19 - three12) augfamily
  let d1 ← FXnum.ofRat three12 augfamily
  let q0 ← n1.truediv (.fx d1)
  let eight ← FXnum.ofRat 8 augfamily
  let q1 ← eight.rtruediv 1
  let a ← q0.rawlog fuel true
  let b ← q1.rawlog fuel true
  let b6 ← b.rmul 6
  let auglog2 ← a.add (.fx b6)
  FXnum.ofFX auglog2 self

/-- The Python float literal `1.6` used by `FXnum.log` (`uprthresh`), i.e.
the IEEE-754 double nearest to 8/5, as an exact rational. -/
def pyFloatOnePointSix : Rat := (3602879701896397 : Rat) / (2 ^ 51 : Rat)

/-- The range-reduction loop `while val > uprthresh: val /= 2; count += 1`
of `FXnum.log`. -/
def logShrink : Nat → FXnum → FXnum → Int → Outcome (FXnum × Int)
  | 0, _, _, _ => .fuelout
  | fuel+1, val, uprthresh, count => do
      let big ← val.gt (.fx uprthresh)
      if big then do
        let val2 ← val.truediv (.num 2)
        logShrink fuel val2 uprthresh (count + 1)
      else .ok (val, count)

/-- The range-reduction loop `while val < lwrthresh: val *= 2; count -= 1`
of `FXnum.log`. -/
def logGrow : Nat → FXnum → FXnum → Int → Outcome (FXnum × Int)
  | 0, _, _, _ => .fuelout
  | fuel+1, val, lwrthresh, count => do
      let small ← val.lt (.fx lwrthresh)
      if small then do
        let val2 ← val.mul (.num 2)
        logGrow fuel val2 lwrthresh (count - 1)
      else .ok (val, count)

/-- Source `FXnum.log`: natural logarithm; non-positive input raises
`FXdomainError`, unity maps to zero, otherwise range-reduce into a band
around one and apply the series, compensating with `count * log2`. -/
def FXnum.log (fuel : Nat) (self : FXnum) : Outcome FXnum :=
  if self.scaledval ≤ 0 then .exn .FXdomainError
  else do
    let isOne ← self.eq (.num 1)
    if isOne then FXnum.ofRat 0 self.family
    else do
      let uprthresh ← FXnum.ofRat pyFloatOnePointSix self.family
      let lwrthresh ← uprthresh.truediv (.num 2)
      let s1 ← logShrink fuel self uprthresh 0
      let s2 ← logGrow fuel s1.1 lwrthresh s1.2
      let l ← s2.1.rawlog fuel false
      let lg2 ← self.family.log2 fuel
      let c ← lg2.rmul (s2.2 : Rat)
      l.add (.fx c)

/-- The repeated-squaring loop of `FXnum.intpower` on a non-negative
exponent; it halves the exponent each pass, so a step counter of `p + 1`
always runs it to completion. -/
def intpowerLoop : Nat → Nat → FXnum → FXnum → Outcome FXnum
  | 0, _, _, _ => .fuelout
  | steps+1, p, result, term => do
      let result2 ← if p % 2 = 1 then result.mul (.fx term) else .ok result
      if p / 2 = 0 then .ok result2
      else do
        let term2 ← term.mul (.fx term)
        intpowerLoop steps (p / 2) result2 term2

/-- Source `FXnum.intpower`: integer power by repeated squaring; a negative
exponent inverts the result at the end. -/
def FXnum.intpower (self : FXnum) (pwr : Int) : Outcome FXnum := do
  let result ← self.family.unity
  let r ← intpowerLoop (pwr.natAbs + 1) pwr.natAbs result self
  if pwr < 0 then do
    let one ← FXnum.ofRat 1 self.family
    one.truediv (.fx r)
  else .ok r

/-- Tag for the mutually recursive pair `FXnum.__pow__` / `FXnum.exp`
(`__pow__` evaluates `exp` for fractional exponents; `exp` evaluates
`exp1 ** int(self)`).  The pair is realised as one fuel-indexed function so
that the recursion is structural. -/
inductive PowExpCall : Type where
  | powC (self : FXnum) (other : PyOperand)
  | expC (self : FXnum)

/-- One fuel-indexed interpreter for the `__pow__`/`exp` pair. -/
def powExpRun : Nat → PowExpCall → Outcome FXnum
  | 0, _ => .fuelout
  | fuel+1, .powC self other => do
      let isZero ← self.eq (.num 0)
      if isZero then self.family.unity
      else do
        let ipwr : Int := match other with
          | .num q => pyIntOfRat q
          | .fx o => o.toInt
        let rmdr ← match other with
          | .num q => Outcome.ok (PyOperand.num (q - (ipwr : Rat)))
          | .fx o => do
              let r ← o.sub (.num (ipwr : Rat))
              Outcome.ok (PyOperand.fx r)
        let rz ← match rmdr with
          | .num q => Outcome.ok (decide (q = 0))
          | .fx o => o.eq (.num 0)
        let frac ← if rz then self.family.unity
          else do
            let l ← self.log fuel
            let t ← match rmdr with
              | .num q => l.rmul q
              | .fx o => o.mul (.fx l)
            powExpRun fuel (.expC t)
        let ip ← self.intpower ipwr
        ip.mul (.fx frac)
  | fuel+1, .expC self => do
      let pwr := self.toInt
      let a ← self.sub (.num (pwr : Rat))
      let r ← a.rawexp fuel
      let e1 ← self.family.exp1 fuel
      let ep ← powExpRun fuel (.powC e1 (.num (pwr : Rat)))
      r.mul (.fx ep)

/-- Source `FXnum.__pow__`: `self ** other`.  A zero base short-circuits to the
family's unity; otherwise the power splits into an integer part (by
repeated squaring) and a fractional part (via `exp(rmdr * log self)`). -/
def FXnum.pow (fuel : Nat) (self : FXnum) (other : PyOperand) : Outcome FXnum :=
  powExpRun fuel (.powC self other)

/-- Source `FXnum.exp`: `exp(self) = rawexp(self - int(self)) * exp1 ** int(self)`. -/
def FXnum.exp (fuel : Nat) (self : FXnum) : Outcome FXnum :=
  powExpRun fuel (.expC self)

/-! ### Basic facts about the embedded primitives -/

theorem pyShiftL_one (k : Nat) : pyShiftL 1 k = 2 ^ k := one_mul _

theorem pyShiftL_one_pos (k : Nat) : 0 < pyShiftL 1 k := by
  rw [pyShiftL_one]; positivity

theorem FXfamily.validate_zero (fam : FXfamily) : fam.validate 0 = true := by
  unfold FXfamily.validate
  cases fam.integer_bits with
  | none => rfl
  | some i =>
      simp only
      split
      · have := pyShiftL_one_pos ((fam.fraction_bits : Int) + i - 1).toNat
        split <;> [skip; rfl]
        omega
      · rfl

theorem pyIntOfRat_intCast (n : Int) : pyIntOfRat (n : Rat) = n := by
  simp [pyIntOfRat, Rat.num_intCast, Rat.den_intCast, Int.tdiv_one]

theorem FXnum.ofRat_zero (fam : FXfamily) : FXnum.ofRat 0 fam = .ok ⟨fam, 0⟩ := by
  have h : ((0 : Rat) * (fam.scale : Rat)) = ((0 : Int) : Rat) := by norm_num
  rw [FXnum.ofRat, h, pyIntOfRat_intCast, FXnum.mkScaled, fam.validate_zero]
  rfl

theorem FXnum.ofRat_one (fam : FXfamily) :
    FXnum.ofRat 1 fam = FXnum.mkScaled fam fam.scale := by
  rw [FXnum.ofRat, one_mul, pyIntOfRat_intCast]

/-! ### C1: family checks on binary arithmetic -/

/-- C1 (amended): a binary arithmetic operation between two fixed-point
values succeeds exactly when their descriptors are the *same instance*
(Python `is`); two merely configuration-equal but distinct descriptor
instances make the operation raise `FXfamilyError`.  When the instances
coincide (and no overflow bound is configured) addition succeeds with the
sum of the scaled values. -/
theorem add_requires_same_family_instance (x y : FXnum) :
    (x.family ≠ y.family → x.add (.fx y) = .exn .FXfamilyError) ∧
    (x.family = y.family → x.family.integer_bits = none →
      x.add (.fx y) = .ok ⟨x.family, x.scaledval + y.scaledval⟩) := by
  constructor
  · intro h
    simp [FXnum.add, FXnum.castOrFail, h]
  · intro h hnone
    rw [h] at hnone
    simp [FXnum.add, FXnum.castOrFail, h, FXnum.mkScaled, FXfamily.validate, hnone]

/-- Witness for C1's amended theorem at concrete inputs: equal-instance
addition of 2.0 and 3.0 at 8 fraction bits succeeds, and the same values in
two distinct (but equally configured) descriptor instances raise. -/
theorem add_requires_same_family_instance_witness :
    (FXnum.mk ⟨0, 8, none⟩ 512).add (.fx ⟨⟨0, 8, none⟩, 768⟩) =
      .ok ⟨⟨0, 8, none⟩, 1280⟩ ∧
    (FXnum.mk ⟨0, 8, none⟩ 512).add (.fx ⟨⟨1, 8, none⟩, 768⟩) =
      .exn .FXfamilyError :=
  ⟨(add_requires_same_family_instance ⟨⟨0, 8, none⟩, 512⟩ ⟨⟨0, 8, none⟩, 768⟩).2
      rfl rfl,
   (add_requires_same_family_instance ⟨⟨0, 8, none⟩, 512⟩ ⟨⟨1, 8, none⟩, 768⟩).1
      (by decide)⟩

/-- Counterexample to C1 as stated: `Value(2, fam8) + Value(3, fam8copy)`
with two distinct descriptor instances of identical configuration
(equal `fraction_bits`) raises `FXfamilyError` instead of succeeding. -/
theorem add_equal_config_distinct_instance_fails :
    (FXfamily.mk 0 8 none).fraction_bits = (FXfamily.mk 1 8 none).fraction_bits ∧
    (FXnum.mk ⟨0, 8, none⟩ 512).add (.fx ⟨⟨1, 8, none⟩, 768⟩) =
      .exn .FXfamilyError := by
  exact ⟨rfl, by decide⟩

/-! ### C8: comparisons across distinct descriptor instances -/

/-- C8: every comparison between values of two distinct descriptor
instances (different object identity, `fid`), even with equal
`fraction_bits`, raises `FXfamilyError` rather than returning a boolean. -/
theorem comparisons_distinct_instances_raise (x y : FXnum)
    (h : x.family.fid ≠ y.family.fid) :
    x.eq (.fx y) = .exn .FXfamilyError ∧
    x.ne (.fx y) = .exn .FXfamilyError ∧
    x.lt (.fx y) = .exn .FXfamilyError ∧
    x.le (.fx y) = .exn .FXfamilyError ∧
    x.gt (.fx y) = .exn .FXfamilyError ∧
    x.ge (.fx y) = .exn .FXfamilyError := by
  have hne : x.family ≠ y.family := fun he => h (by rw [he])
  refine ⟨?_, ?_, ?_, ?_, ?_, ?_⟩ <;>
    simp [FXnum.eq, FXnum.ne, FXnum.lt, FXnum.le, FXnum.gt, FXnum.ge,
      FXnum.castOrFail, hne]

/-- Witness for C8 at concrete inputs: two 8-bit families with distinct
identities make `==` raise (rather than return `False`). -/
theorem comparisons_distinct_instances_raise_witness :
    (FXnum.mk ⟨0, 8, none⟩ 512).eq (.fx ⟨⟨1, 8, none⟩, 512⟩) =
      .exn .FXfamilyError ∧
    (FXnum.mk ⟨0, 8, none⟩ 512).ne (.fx ⟨⟨1, 8, none⟩, 512⟩) =
      .exn .FXfamilyError :=
  ⟨(comparisons_distinct_instances_raise ⟨⟨0, 8, none⟩, 512⟩ ⟨⟨1, 8, none⟩, 512⟩
      (by decide)).1,
   (comparisons_distinct_instances_raise ⟨⟨0, 8, none⟩, 512⟩ ⟨⟨1, 8, none⟩, 512⟩
      (by decide)).2.1⟩

/-! ### C2 / C7: truncation behaviour of construction and integer cast -/

theorem pyIntOfRat_eq_floor (q : Rat) (h : 0 ≤ q) : pyIntOfRat q = ⌊q⌋ := by
  have hn : 0 ≤ q.num := Rat.num_nonneg.mpr h
  have hd : (0 : Int) ≤ (q.den : Int) := Int.natCast_nonneg _
  rw [pyIntOfRat, Int.tdiv_eq_ediv hn hd]
  conv_rhs => rw [← Rat.num_div_den q]
  rw [Rat.floor_intCast_div_natCast]

theorem pyIntOfRat_eq_ceil (q : Rat) (h : q ≤ 0) : pyIntOfRat q = ⌈q⌉ := by
  have h2 : (0 : Rat) ≤ -q := neg_nonneg.mpr h
  have hf := pyIntOfRat_eq_floor (-q) h2
  rw [pyIntOfRat, Rat.num_neg_eq_neg_num, Rat.den_neg_eq_den, Int.neg_tdiv] at hf
  have hc : ⌈q⌉ = -⌊-q⌋ := by
    rw [show q = -(-q) by ring, Int.ceil_neg, neg_neg]
  rw [pyIntOfRat, hc]
  omega

theorem fdiv_eq_floor_rat (a b : Int) (hb : 0 < b) :
    Int.fdiv a b = ⌊(a : Rat) / (b : Rat)⌋ := by
  rw [Int.fdiv_eq_ediv a hb.le]
  lift b to Nat using hb.le with n
  rw [show ((n : Int) : Rat) = (n : Rat) by push_cast; ring]
  exact (Rat.floor_intCast_div_natCast a n).symm

theorem fdiv_ceil_identity (a b : Int) (hb : 0 < b) :
    Int.fdiv (a + b - 1) b = ⌈(a : Rat) / (b : Rat)⌉ := by
  have hbne : b ≠ 0 := by omega
  have h1 := Int.ediv_add_emod a b
  have h2 := Int.emod_nonneg a hbne
  have h3 := Int.emod_lt_of_pos a hb
  have hceil : ⌈(a : Rat) / (b : Rat)⌉ = -Int.fdiv (-a) b := by
    rw [fdiv_eq_floor_rat (-a) b hb]
    rw [show ((-a : Int) : Rat) = -(a : Rat) by push_cast; ring]
    rw [show (-(a : Rat)) / (b : Rat) = -((a : Rat) / (b : Rat)) by ring]
    rw [Int.floor_neg]
    simp [Int.ceil_neg]
  rw [hceil, Int.fdiv_eq_ediv _ hb.le, Int.fdiv_eq_ediv _ hb.le]
  -- abbreviate the Euclidean division of `a` by `b`
  set q := a / b with hq
  set r := a % b with hr
  have hsplit1 : a + b - 1 = (r + b - 1) + q * b := by linear_combination -h1
  have hsplit2 : -a = -r + -q * b := by linear_combination h1
  rw [hsplit1, hsplit2, Int.add_mul_ediv_right _ _ hbne, Int.add_mul_ediv_right _ _ hbne]
  rcases eq_or_lt_of_le h2 with hzero | hpos
  · have e1 : (r + b - 1) / b = 0 := Int.ediv_eq_zero_of_lt (by omega) (by omega)
    have e2 : (-r) / b = 0 := Int.ediv_eq_zero_of_lt (by omega) (by omega)
    rw [e1, e2]; ring
  · have e1 : (r + b - 1) / b = 1 := by
      have : r + b - 1 = (r - 1) + 1 * b := by ring
      rw [this, Int.add_mul_ediv_right _ _ hbne,
        Int.ediv_eq_zero_of_lt (by omega) (by omega)]
      norm_num
    have e2 : (-r) / b = -1 := by
      have hbr : (b - r) / b = 0 := Int.ediv_eq_zero_of_lt (by omega) (by omega)
      have : b - r = -r + 1 * b := by ring
      rw [this, Int.add_mul_ediv_right _ _ hbne] at hbr
      omega
    rw [e1, e2]; ring

/-- C2 (amended): constructing a fixed-point value from a plain rational
number `v` stores `scaledValue = int(v * scale)`, i.e. `v * scale`
*truncated toward zero* (floor for non-negative `v`, ceiling for negative
`v`) — not rounded to the nearest integer. -/
theorem ofRat_truncates_toward_zero (v : Rat) (fam : FXfamily)
    (hnone : fam.integer_bits = none) :
    (0 ≤ v → FXnum.ofRat v fam = .ok ⟨fam, ⌊v * (fam.scale : Rat)⌋⟩) ∧
    (v < 0 → FXnum.ofRat v fam = .ok ⟨fam, ⌈v * (fam.scale : Rat)⌉⟩) := by
  have hS : (0 : Rat) < (fam.scale : Rat) := by
    have := pyShiftL_one_pos fam.fraction_bits
    rw [FXfamily.scale]
    exact_mod_cast this
  have hval : ∀ sv : Int, fam.validate sv = true := by
    intro sv; unfold FXfamily.validate; rw [hnone]
  constructor
  · intro h
    rw [FXnum.ofRat, pyIntOfRat_eq_floor _ (by positivity), FXnum.mkScaled, hval]
    rfl
  · intro h
    have : v * (fam.scale : Rat) ≤ 0 := by nlinarith
    rw [FXnum.ofRat, pyIntOfRat_eq_ceil _ this, FXnum.mkScaled, hval]
    rfl

/-- Witness for C2's amended theorem: `FXnum(7/10, FXfamily(2))` stores
`floor(7/10 * 4) = 2`, and `FXnum(-7/10, FXfamily(2))` stores
`ceil(-7/10 * 4) = -2`. -/
theorem ofRat_truncates_toward_zero_witness :
    FXnum.ofRat (7/10) ⟨0, 2, none⟩ =
      .ok ⟨⟨0, 2, none⟩, ⌊(7/10 : Rat) * ((FXfamily.mk 0 2 none).scale : Rat)⌋⟩ ∧
    FXnum.ofRat (-7/10) ⟨0, 2, none⟩ =
      .ok ⟨⟨0, 2, none⟩, ⌈(-7/10 : Rat) * ((FXfamily.mk 0 2 none).scale : Rat)⌉⟩ :=
  ⟨(ofRat_truncates_toward_zero (7/10) ⟨0, 2, none⟩ rfl).1 (by norm_num),
   (ofRat_truncates_toward_zero (-7/10) ⟨0, 2, none⟩ rfl).2 (by norm_num)⟩

/-- Counterexample to C2 as stated: with 2 fraction bits, constructing from
`7/10` stores `int(7/10 * 4) = 2`, while rounding `7/10 * 4 = 2.8` to the
nearest integer would give `3`. -/
theorem ofRat_differs_from_round_nearest :
    FXnum.ofRat (7/10) ⟨0, 2, none⟩ = .ok ⟨⟨0, 2, none⟩, 2⟩ ∧
    round ((7/10 : Rat) * ((FXfamily.mk 0 2 none).scale : Rat)) = 3 := by
  constructor
  · with_unfolding_all decide
  · have hs : ((FXfamily.mk 0 2 none).scale : Rat) = 4 := by
      norm_num [FXfamily.scale, pyShiftL]
    rw [hs, round_eq]
    norm_num

/-- C7: integer conversion truncates toward zero: for non-negative scaled
values it is `scaledval // scale` (the floor of the quotient); for negative
scaled values it is `(scaledval + scale - 1) // scale`, which is exactly
the ceiling of the quotient. -/
theorem toInt_truncates_toward_zero (x : FXnum) :
    (0 ≤ x.scaledval →
      x.toInt = ⌊(x.scaledval : Rat) / (x.family.scale : Rat)⌋) ∧
    (x.scaledval < 0 →
      x.toInt = pyFloorDiv (x.scaledval + x.family.scale - 1) x.family.scale ∧
      x.toInt = ⌈(x.scaledval : Rat) / (x.family.scale : Rat)⌉) := by
  have hS : (0 : Int) < x.family.scale := pyShiftL_one_pos _
  constructor
  · intro h
    rw [FXnum.toInt, if_pos (show x.scaledval ≥ 0 from h)]
    exact fdiv_eq_floor_rat _ _ hS
  · intro h
    refine ⟨by rw [FXnum.toInt, if_neg (by omega)], ?_⟩
    rw [FXnum.toInt, if_neg (by omega)]
    exact fdiv_ceil_identity _ _ hS

/-- Witness for C7 at concrete inputs: at 4 fraction bits, `int(1.5)`
(scaled 24) is `floor(24/16) = 1` and `int(-1.5)` (scaled -24) is
`ceil(-24/16) = -1`. -/
theorem toInt_truncates_toward_zero_witness :
    (FXnum.mk ⟨0, 4, none⟩ 24).toInt =
      ⌊(((FXnum.mk ⟨0, 4, none⟩ 24).scaledval : Rat) /
        ((FXfamily.mk 0 4 none).scale : Rat))⌋ ∧
    (FXnum.mk ⟨0, 4, none⟩ (-24)).toInt =
      ⌈(((FXnum.mk ⟨0, 4, none⟩ (-24)).scaledval : Rat) /
        ((FXfamily.mk 0 4 none).scale : Rat))⌉ :=
  ⟨(toInt_truncates_toward_zero ⟨⟨0, 4, none⟩, 24⟩).1 (by decide),
   ((toInt_truncates_toward_zero ⟨⟨0, 4, none⟩, -24⟩).2 (by decide)).2⟩

/-! ### C4: the integer-bit overflow invariant -/

/-- C4: with an integer-bit limit configured (and a non-negative shift
amount, as for the spec's unsigned limits), construction succeeds exactly
on scaled values in `[-2^(fractionBits+integerBitLimit-1),
2^(fractionBits+integerBitLimit-1))`, raising `FXoverflowError` outside
that range, and every value obtained from a successful construction or
arithmetic result lies in the range. -/
theorem integer_bit_limit_invariant (fam : FXfamily) (i : Int)
    (hi : fam.integer_bits = some i)
    (he : 0 ≤ (fam.fraction_bits : Int) + i - 1) :
    (∀ (sv : Int) (x : FXnum), FXnum.mkScaled fam sv = .ok x →
        x.family = fam ∧ x.scaledval = sv ∧
        -(2 ^ ((fam.fraction_bits : Int) + i - 1).toNat : Int) ≤ sv ∧
        sv < 2 ^ ((fam.fraction_bits : Int) + i - 1).toNat) ∧
    (∀ sv : Int, (sv < -(2 ^ ((fam.fraction_bits : Int) + i - 1).toNat : Int) ∨
        2 ^ ((fam.fraction_bits : Int) + i - 1).toNat ≤ sv) →
        FXnum.mkScaled fam sv = .exn .FXoverflowError) ∧
    (∀ x y z : FXnum, x.family = fam → x.add (.fx y) = .ok z →
        -(2 ^ ((fam.fraction_bits : Int) + i - 1).toNat : Int) ≤ z.scaledval ∧
        z.scaledval < 2 ^ ((fam.fraction_bits : Int) + i - 1).toNat) ∧
    (∀ x y z : FXnum, x.family = fam → x.mul (.fx y) = .ok z →
        -(2 ^ ((fam.fraction_bits : Int) + i - 1).toNat : Int) ≤ z.scaledval ∧
        z.scaledval < 2 ^ ((fam.fraction_bits : Int) + i - 1).toNat) := by
  set T : Int := 2 ^ ((fam.fraction_bits : Int) + i - 1).toNat with hTdef
  have hval2 : ∀ sv : Int, (fam.validate sv = true) ↔ (-T ≤ sv ∧ sv < T) := by
    intro sv
    unfold FXfamily.validate
    rw [hi]
    simp only [he, if_true, pyShiftL_one]
    rw [← hTdef]
    constructor
    · intro hv
      by_cases hc : sv ≥ T ∨ sv < -T
      · rw [if_pos hc] at hv; cases hv
      · omega
    · intro hr
      rw [if_neg (by omega)]
  have ha : ∀ (sv : Int) (x : FXnum), FXnum.mkScaled fam sv = .ok x →
      x.family = fam ∧ x.scaledval = sv ∧ -T ≤ sv ∧ sv < T := by
    intro sv x h
    rw [FXnum.mkScaled] at h
    by_cases hv : fam.validate sv = true
    · rw [if_pos hv] at h
      cases h
      have hr := (hval2 sv).mp hv
      exact ⟨rfl, rfl, hr.1, hr.2⟩
    · rw [if_neg hv] at h
      simp at h
  refine ⟨ha, ?_, ?_, ?_⟩
  · intro sv hout
    have hv : ¬(fam.validate sv = true) := by
      intro hv
      have := (hval2 sv).mp hv
      omega
    rw [FXnum.mkScaled, if_neg hv]
  · intro x y z hfam hadd
    unfold FXnum.add at hadd
    cases hc : x.castOrFail (.fx y) with
    | ok o =>
        rw [hc] at hadd
        simp only [Outcome.bind_eq, Outcome.bind_ok] at hadd
        rw [hfam] at hadd
        obtain ⟨-, hz, h1, h2⟩ := ha _ _ hadd
        rw [hz]
        exact ⟨h1, h2⟩
    | exn e => rw [hc] at hadd; simp at hadd
    | fuelout => rw [hc] at hadd; simp at hadd
  · intro x y z hfam hmul
    unfold FXnum.mul at hmul
    cases hc : x.castOrFail (.fx y) with
    | ok o =>
        rw [hc] at hmul
        simp only [Outcome.bind_eq, Outcome.bind_ok] at hmul
        rw [hfam] at hmul
        obtain ⟨-, hz, h1, h2⟩ := ha _ _ hmul
        rw [hz]
        exact ⟨h1, h2⟩
    | exn e => rw [hc] at hmul; simp at hmul
    | fuelout => rw [hc] at hmul; simp at hmul

/-- Witness for C4 at a concrete descriptor (16 fraction bits, 4 integer
bits, threshold `2^19`): the boundary values behave exactly as claimed. -/
theorem integer_bit_limit_invariant_witness :
    FXnum.mkScaled ⟨0, 16, some 4⟩ (2 ^ 19 - 1) =
      .ok ⟨⟨0, 16, some 4⟩, 2 ^ 19 - 1⟩ ∧
    FXnum.mkScaled ⟨0, 16, some 4⟩ (2 ^ 19) = .exn .FXoverflowError ∧
    FXnum.mkScaled ⟨0, 16, some 4⟩ (-(2 ^ 19)) =
      .ok ⟨⟨0, 16, some 4⟩, -(2 ^ 19)⟩ ∧
    FXnum.mkScaled ⟨0, 16, some 4⟩ (-(2 ^ 19) - 1) = .exn .FXoverflowError := by
  have h := integer_bit_limit_invariant ⟨0, 16, some 4⟩ 4 rfl (by norm_num)
  exact ⟨by decide, h.2.1 _ (by decide), by decide, h.2.1 _ (by decide)⟩

/-! ### C6: commutativity and identities -/

/-- C6 (amended): for values in the same descriptor, addition and
multiplication commute unconditionally (identical results, including an
identical raised error on overflow or family mismatch); `x + (-x)` is the
additive identity whenever the negation itself does not overflow; and
`1 * x` (with the plain literal promoted by `__rmul__`) returns `x`
whenever unity is representable in the descriptor. -/
theorem arithmetic_commutativity_and_identities :
    (∀ x y : FXnum, x.add (.fx y) = y.add (.fx x)) ∧
    (∀ x y : FXnum, x.mul (.fx y) = y.mul (.fx x)) ∧
    (∀ x nx : FXnum, x.neg = .ok nx → x.add (.fx nx) = .ok ⟨x.family, 0⟩) ∧
    (∀ x : FXnum, 1 ≤ x.family.fraction_bits →
        x.family.validate x.scaledval = true →
        x.family.validate x.family.scale = true →
        x.rmul 1 = .ok x) := by
  refine ⟨?_, ?_, ?_, ?_⟩
  · intro x y
    by_cases hf : x.family = y.family
    · simp [FXnum.add, FXnum.castOrFail, hf, Int.add_comm]
    · have hf2 : y.family ≠ x.family := fun h => hf h.symm
      simp [FXnum.add, FXnum.castOrFail, hf, hf2]
  · intro x y
    by_cases hf : x.family = y.family
    · simp [FXnum.mul, FXnum.castOrFail, hf, Int.mul_comm]
    · have hf2 : y.family ≠ x.family := fun h => hf h.symm
      simp [FXnum.mul, FXnum.castOrFail, hf, hf2]
  · intro x nx h
    rw [FXnum.neg, FXnum.mkScaled] at h
    by_cases hv : x.family.validate (-x.scaledval) = true
    · rw [if_pos hv] at h
      cases h
      simp only [FXnum.add, FXnum.castOrFail, eq_self_iff_true, if_true,
        Outcome.bind_eq, Outcome.bind_ok]
      rw [show x.scaledval + -x.scaledval = 0 by ring, FXnum.mkScaled,
        x.family.validate_zero]
      rfl
    · rw [if_neg hv] at h
      simp at h
  · intro x hf hvx hvu
    cases x with
    | mk fam sv =>
      simp only at hf hvx hvu
      rw [FXnum.rmul, FXnum.ofRat_one, FXnum.mkScaled, if_pos hvu]
      simp only [Outcome.bind_eq, Outcome.bind_ok]
      simp only [FXnum.mul, FXnum.castOrFail, eq_self_iff_true, if_true,
        Outcome.bind_eq, Outcome.bind_ok]
      have hq : pyFloorDiv (fam.scale * sv + fam.roundup) fam.scale = sv := by
        have hS : (0 : Int) < fam.scale := pyShiftL_one_pos _
        have hHS : fam.roundup * 2 = fam.scale := by
          rw [FXfamily.roundup, FXfamily.scale, pyShiftL_one, pyShiftL_one,
            ← pow_succ]
          congr 1
          omega
        have hH : (0 : Int) < fam.roundup := pyShiftL_one_pos _
        rw [pyFloorDiv, Int.fdiv_eq_ediv _ hS.le,
          show fam.scale * sv + fam.roundup = fam.roundup + sv * fam.scale by
            ring,
          Int.add_mul_ediv_right _ _ (by omega : fam.scale ≠ 0),
          Int.ediv_eq_zero_of_lt hH.le (by omega)]
        ring
      rw [hq, FXnum.mkScaled, if_pos hvx]
  
/-- Witness for C6's amended theorem, at 8 fraction bits with values 2.0
and 3.0: addition and multiplication commute, `x + (-x) == 0`, `1 * x == x`. -/
theorem arithmetic_commutativity_and_identities_witness :
    (FXnum.mk ⟨0, 8, none⟩ 512).add (.fx ⟨⟨0, 8, none⟩, 768⟩) =
      (FXnum.mk ⟨0, 8, none⟩ 768).add (.fx ⟨⟨0, 8, none⟩, 512⟩) ∧
    (FXnum.mk ⟨0, 8, none⟩ 512).mul (.fx ⟨⟨0, 8, none⟩, 768⟩) =
      (FXnum.mk ⟨0, 8, none⟩ 768).mul (.fx ⟨⟨0, 8, none⟩, 512⟩) ∧
    (FXnum.mk ⟨0, 8, none⟩ 512).add (.fx ⟨⟨0, 8, none⟩, -512⟩) =
      .ok ⟨⟨0, 8, none⟩, 0⟩ ∧
    (FXnum.mk ⟨0, 8, none⟩ 512).rmul 1 = .ok ⟨⟨0, 8, none⟩, 512⟩ :=
  ⟨arithmetic_commutativity_and_identities.1 ⟨⟨0, 8, none⟩, 512⟩ ⟨⟨0, 8, none⟩, 768⟩,
   arithmetic_commutativity_and_identities.2.1 ⟨⟨0, 8, none⟩, 512⟩ ⟨⟨0, 8, none⟩, 768⟩,
   arithmetic_commutativity_and_identities.2.2.1 ⟨⟨0, 8, none⟩, 512⟩ ⟨⟨0, 8, none⟩, -512⟩
     (by decide),
   arithmetic_commutativity_and_identities.2.2.2 ⟨⟨0, 8, none⟩, 512⟩ (by decide)
     (by decide) (by decide)⟩

/-- Counterexample to C6 as stated: in `FXfamily(1, 1)` the value with
scaled representation `-2` (i.e. `-1.0`) is validly constructible, but its
negation overflows, so `x + (-x) == 0` raises `FXoverflowError` instead of
holding. -/
theorem neg_of_most_negative_overflows :
    FXnum.mkScaled ⟨0, 1, some 1⟩ (-2) = .ok ⟨⟨0, 1, some 1⟩, -2⟩ ∧
    FXnum.neg ⟨⟨0, 1, some 1⟩, -2⟩ = .exn .FXoverflowError := by
  exact ⟨by decide, by decide⟩

/-! ### C9: zero base short-circuit of `__pow__` -/

/-- C9 (amended): raising a zero fixed-point value to *any* exponent
(integer or fractional, positive or negative, `FXnum` or plain) returns
the family's unity — provided unity itself is representable (its
construction is validated); in particular `0 ** -1` yields `1` and raises
no division or domain error. -/
theorem pow_of_zero_returns_unity (fuel : Nat) (x : FXnum) (e : PyOperand)
    (hx : x.scaledval = 0)
    (hu : x.family.validate x.family.scale = true) :
    FXnum.pow (fuel + 1) x e = .ok ⟨x.family, x.family.scale⟩ := by
  have heq : x.eq (.num 0) = .ok true := by
    rw [FXnum.eq]
    simp only [FXnum.castOrFail, FXnum.ofRat_zero, Outcome.bind_eq,
      Outcome.bind_ok, Outcome.pure_eq]
    simp [hx, FXfamily.beq]
  rw [FXnum.pow, powExpRun.eq_def]
  simp only [heq, Outcome.bind_eq, Outcome.bind_ok]
  rw [if_pos trivial, FXfamily.unity, FXnum.ofRat_one, FXnum.mkScaled, if_pos hu]

/-- Witness for C9's amended theorem: `FXnum(0, FXfamily(8)) ** -1`
returns unity (scaled 256). -/
theorem pow_of_zero_returns_unity_witness :
    FXnum.pow 1 ⟨⟨0, 8, none⟩, 0⟩ (.num (-1)) =
      .ok ⟨⟨0, 8, none⟩, (FXfamily.mk 0 8 none).scale⟩ :=
  pow_of_zero_returns_unity 0 ⟨⟨0, 8, none⟩, 0⟩ (.num (-1)) rfl (by decide)

/-- Counterexample to C9 as stated: in `FXfamily(1, 1)` zero is validly
constructible but unity is not, so `0 ** -1` raises `FXoverflowError`
instead of returning the multiplicative identity. -/
theorem pow_of_zero_tiny_family_overflows :
    FXnum.mkScaled ⟨0, 1, some 1⟩ 0 = .ok ⟨⟨0, 1, some 1⟩, 0⟩ ∧
    FXnum.pow 1 ⟨⟨0, 1, some 1⟩, 0⟩ (.num (-1)) = .exn .FXoverflowError := by
  constructor
  · decide
  · with_unfolding_all decide

/-! ### C10: widening a zero value injects the rounding offset -/

theorem pyOr_zero_left (m : Nat) : pyOr 0 (m : Int) = m := by
  show Int.lor (Int.ofNat 0) (Int.ofNat m) = Int.ofNat m
  have h : Int.lor (Int.ofNat 0) (Int.ofNat m) = Int.ofNat (0 ||| m) := rfl
  rw [h, Nat.zero_or]

/-- C10: converting a zero scaled value into a descriptor with `b` more
fraction bits produces `2^(b-1) - 1`: zero for `b = 1`, but a *nonzero*
scaled value for every `b ≥ 2`, so the widened zero no longer compares
equal to zero. -/
theorem convert_zero_to_wider (narrow wide : FXfamily) (b : Nat)
    (hb : wide.fraction_bits = narrow.fraction_bits + b) (hb1 : 1 ≤ b) :
    (wide.Convert narrow 0 = 2 ^ (b - 1) - 1) ∧
    (2 ≤ b → wide.Convert narrow 0 ≠ 0) ∧
    (b = 1 → wide.Convert narrow 0 = 0) := by
  have hbi : (wide.fraction_bits : Int) - (narrow.fraction_bits : Int) = (b : Int) := by
    rw [hb]; push_cast; ring
  have hmain : wide.Convert narrow 0 = 2 ^ (b - 1) - 1 := by
    rw [FXfamily.Convert]
    simp only [hbi]
    rw [if_neg (by exact_mod_cast Nat.one_le_iff_ne_zero.mp hb1),
      if_pos (by exact_mod_cast hb1)]
    rw [if_neg (by norm_num)]
    have hz : pyShiftL 0 (b : Int).toNat = 0 := by
      rw [pyShiftL, zero_mul]
    rw [hz]
    have hm : pyShiftL 1 ((b : Int).toNat - 1) - 1 = ((2 ^ (b - 1) - 1 : Nat) : Int) := by
      rw [pyShiftL_one, Int.toNat_natCast]
      have h1 : 1 ≤ 2 ^ (b - 1) := Nat.one_le_two_pow
      push_cast [h1]
      ring
    rw [hm, pyOr_zero_left]
    have h1 : 1 ≤ 2 ^ (b - 1) := Nat.one_le_two_pow
    push_cast [h1]
    ring
  refine ⟨hmain, ?_, ?_⟩
  · intro h2
    rw [hmain]
    have hp : (2 : Int) ^ 1 ≤ 2 ^ (b - 1) := pow_le_pow_right₀ (by norm_num) (by omega)
    norm_num at hp ⊢
    omega
  · intro h1
    rw [hmain, h1]
    norm_num

/-- Witness for C10 at concrete descriptors: widening zero by 3 fraction
bits (8 to 11) gives scaled value `3 ≠ 0`; widening by exactly 1 bit
(8 to 9) keeps it zero. -/
theorem convert_zero_to_wider_witness :
    (FXfamily.mk 1 11 none).Convert ⟨0, 8, none⟩ 0 = 3 ∧
    (FXfamily.mk 1 11 none).Convert ⟨0, 8, none⟩ 0 ≠ 0 ∧
    (FXfamily.mk 2 9 none).Convert ⟨0, 8, none⟩ 0 = 0 :=
  ⟨(convert_zero_to_wider ⟨0, 8, none⟩ ⟨1, 11, none⟩ 3 rfl (by norm_num)).1,
   (convert_zero_to_wider ⟨0, 8, none⟩ ⟨1, 11, none⟩ 3 rfl (by norm_num)).2.1
     (by norm_num),
   (convert_zero_to_wider ⟨0, 8, none⟩ ⟨2, 9, none⟩ 1 rfl (by norm_num)).2.2 rfl⟩

/-! ### C3: widen-then-narrow conversion round trip -/

theorem nat_shl_or_disjoint (n B m : Nat) (hm : m < 2 ^ B) :
    (n * 2 ^ B) ||| m = n * 2 ^ B + m := by
  rw [Nat.mul_comm]
  exact (Nat.mul_add_lt_is_or hm n).symm

theorem nat_ldiff_low_bits (k B m : Nat) (hm : m < 2 ^ B) :
    Nat.ldiff ((k + 1) * 2 ^ B - 1) m = (k + 1) * 2 ^ B - 1 - m := by
  have hP : 1 ≤ 2 ^ B := Nat.one_le_two_pow
  have hexp : (k + 1) * 2 ^ B = 2 ^ B * k + 2 ^ B := by ring
  apply Nat.eq_of_testBit_eq
  intro i
  have e1 : (k + 1) * 2 ^ B - 1 = 2 ^ B * k + (2 ^ B - 1) := by omega
  have e2 : (k + 1) * 2 ^ B - 1 - m = 2 ^ B * k + (2 ^ B - (m + 1)) := by omega
  rw [Nat.testBit_ldiff, e2, e1,
    Nat.testBit_mul_pow_two_add _ (by omega) i,
    Nat.testBit_mul_pow_two_add _ (by omega) i]
  by_cases hiB : i < B
  · rw [if_pos hiB, if_pos hiB, Nat.testBit_two_pow_sub_succ hm,
      Nat.testBit_two_pow_sub_one]
  · rw [if_neg hiB, if_neg hiB]
    have hmi : m.testBit i = false :=
      Nat.testBit_lt_two_pow
        (lt_of_lt_of_le hm (Nat.pow_le_pow_right (by norm_num) (by omega)))
    rw [hmi]
    simp

theorem int_or_low_bits (v : Int) (B : Nat) (m : Nat) (hm : m < 2 ^ B) :
    pyOr (v * 2 ^ B) (m : Int) = v * 2 ^ B + m := by
  cases v with
  | ofNat n =>
      rw [show Int.ofNat n = ((n : Nat) : Int) from rfl]
      have hcast : ((n : Nat) : Int) * 2 ^ B = ((n * 2 ^ B : Nat) : Int) := by
        push_cast; ring
      rw [pyOr, hcast]
      have hlor : Int.lor ((n * 2 ^ B : Nat) : Int) ((m : Nat) : Int) =
          ((n * 2 ^ B ||| m : Nat) : Int) := rfl
      rw [hlor, nat_shl_or_disjoint n B m hm]
      push_cast
      ring
  | negSucc k =>
      have hP : 1 ≤ 2 ^ B := Nat.one_le_two_pow
      have hpos : 0 < (k + 1) * 2 ^ B := Nat.mul_pos (by omega) (by positivity)
      have ht : ((k + 1) * 2 ^ B - 1) + 1 = (k + 1) * 2 ^ B := by omega
      have hns : (Int.negSucc k) * 2 ^ B = Int.negSucc ((k + 1) * 2 ^ B - 1) := by
        rw [Int.negSucc_eq, Int.negSucc_eq]
        have hc : (((k + 1) * 2 ^ B - 1 : Nat) : Int) + 1 =
            (((k + 1) * 2 ^ B : Nat) : Int) := by
          exact_mod_cast congrArg (fun t : Nat => (t : Int)) ht
        rw [hc]
        push_cast
        ring
      rw [pyOr, hns]
      have hlor2 : Int.lor (Int.negSucc ((k + 1) * 2 ^ B - 1)) ((m : Nat) : Int) =
          Int.negSucc (Nat.ldiff ((k + 1) * 2 ^ B - 1) m) := rfl
      rw [hlor2, nat_ldiff_low_bits k B m hm]
      have hmj : m ≤ (k + 1) * 2 ^ B - 1 := by
        have h2 : 2 ^ B ≤ (k + 1) * 2 ^ B := Nat.le_mul_of_pos_left _ (by omega)
        omega
      rw [Int.negSucc_eq, Int.negSucc_eq]
      push_cast [hmj]
      ring

theorem pyShiftR_mul_pow_add (v : Int) (B : Nat) (m : Int)
    (h0 : 0 ≤ m) (hm : m < 2 ^ B) :
    pyShiftR (v * 2 ^ B + m) B = v := by
  have hpow : (0 : Int) < 2 ^ B := by positivity
  rw [pyShiftR, Int.fdiv_eq_ediv _ hpow.le,
    show v * 2 ^ B + m = m + v * 2 ^ B by ring,
    Int.add_mul_ediv_right _ _ hpow.ne.symm,
    Int.ediv_eq_zero_of_lt h0 hm]
  ring

/-- C3: converting a scaled value from a descriptor with fewer fraction
bits into one with strictly more fraction bits (round-to-nearest widening)
and then back (truncating narrowing) reproduces the original scaled value
exactly. -/
theorem convert_roundtrip_widen_narrow (v : Int) (a b : FXfamily)
    (h : a.fraction_bits < b.fraction_bits) :
    a.Convert b (b.Convert a v) = v := by
  set B := b.fraction_bits - a.fraction_bits with hB
  have hB1 : 1 ≤ B := by omega
  have hbi : (b.fraction_bits : Int) - (a.fraction_bits : Int) = (B : Int) := by
    omega
  have hbi2 : (a.fraction_bits : Int) - (b.fraction_bits : Int) = -(B : Int) := by
    omega
  have hBne : ((B : Int)) ≠ 0 := by exact_mod_cast Nat.one_le_iff_ne_zero.mp hB1
  have hBpos : (0 : Int) < (B : Int) := by exact_mod_cast hB1
  -- the widening step produces `v * 2^B + offset` with `0 ≤ offset < 2^B`
  have hwiden : ∃ m : Nat, m < 2 ^ B ∧ b.Convert a v = v * 2 ^ B + m := by
    rw [FXfamily.Convert]
    simp only [hbi]
    rw [if_neg hBne, if_pos hBpos]
    by_cases hv : v > 0
    · refine ⟨2 ^ (B - 1), Nat.pow_lt_pow_right (by norm_num) (by omega), ?_⟩
      rw [if_pos hv]
      have hm : pyShiftL 1 ((B : Int).toNat - 1) = ((2 ^ (B - 1) : Nat) : Int) := by
        rw [pyShiftL_one, Int.toNat_natCast]
        push_cast
        ring
      rw [hm, pyShiftL, Int.toNat_natCast]
      exact int_or_low_bits v B (2 ^ (B - 1))
        (Nat.pow_lt_pow_right (by norm_num) (by omega))
    · have hP : 1 ≤ 2 ^ (B - 1) := Nat.one_le_two_pow
      refine ⟨2 ^ (B - 1) - 1, by
        have := Nat.pow_lt_pow_right (by norm_num : 1 < 2) (by omega : B - 1 < B)
        omega, ?_⟩
      rw [if_neg hv]
      have hm : pyShiftL 1 ((B : Int).toNat - 1) - 1 =
          ((2 ^ (B - 1) - 1 : Nat) : Int) := by
        rw [pyShiftL_one, Int.toNat_natCast]
        push_cast [hP]
        ring
      rw [hm, pyShiftL, Int.toNat_natCast]
      exact int_or_low_bits v B (2 ^ (B - 1) - 1)
        (by
          have := Nat.pow_lt_pow_right (by norm_num : 1 < 2) (by omega : B - 1 < B)
          omega)
  obtain ⟨m, hmlt, hw⟩ := hwiden
  rw [hw, FXfamily.Convert]
  simp only [hbi2]
  rw [if_neg (by omega), if_neg (by omega)]
  rw [show (-(-(B : Int))).toNat = B by simp [Int.toNat_natCast]]
  exact pyShiftR_mul_pow_add v B m (by positivity)
    (by exact_mod_cast hmlt)

/-- Witness for C3 at concrete descriptors and value: scaled `-5` widened
from 8 to 11 fraction bits and narrowed back is `-5` again. -/
theorem convert_roundtrip_widen_narrow_witness :
    (FXfamily.mk 0 8 none).Convert ⟨1, 11, none⟩
      ((FXfamily.mk 1 11 none).Convert ⟨0, 8, none⟩ (-5)) = -5 :=
  convert_roundtrip_widen_narrow (-5) ⟨0, 8, none⟩ ⟨1, 11, none⟩ (by norm_num)

/-! ### C5: accuracy of the Newton square-root iteration -/

theorem fdiv_pos_bounds (a b : Int) (hb : 0 < b) :
    b * Int.fdiv a b ≤ a ∧ a < b * Int.fdiv a b + b := by
  rw [Int.fdiv_eq_ediv _ hb.le]
  have h1 := Int.ediv_add_emod a b
  have h2 := Int.emod_nonneg a (by omega : b ≠ 0)
  have h3 := Int.emod_lt_of_pos a hb
  constructor <;> linarith

theorem fdiv_neg_bounds (a b : Int) (hb : b < 0) :
    a ≤ b * Int.fdiv a b ∧ b * Int.fdiv a b + b < a := by
  obtain ⟨n, rfl⟩ : ∃ n : Nat, b = Int.negSucc n := by
    cases b with
    | ofNat k => exact absurd hb (Int.not_lt.mpr (Int.ofNat_nonneg k))
    | negSucc n => exact ⟨n, rfl⟩
  cases a with
  | ofNat j =>
      cases j with
      | zero =>
          rw [show Int.ofNat 0 = (0 : Int) from rfl, Int.zero_fdiv]
          rw [Int.negSucc_eq]
          constructor <;> [simp; omega]
      | succ j2 =>
          have hf : Int.fdiv (Int.ofNat (j2 + 1)) (Int.negSucc n) =
              Int.negSucc (j2 / (n + 1)) := rfl
          have hd := Nat.div_add_mod j2 (n + 1)
          have hmod := Nat.mod_lt j2 (Nat.succ_pos n)
          have hdz : ((n : Int) + 1) * ((j2 / (n + 1) : Nat) : Int) +
              ((j2 % (n + 1) : Nat) : Int) = (j2 : Int) := by exact_mod_cast hd
          have hmz : ((j2 % (n + 1) : Nat) : Int) < (n : Int) + 1 := by
            exact_mod_cast hmod
          rw [hf]
          simp only [Int.negSucc_eq]
          rw [show Int.ofNat (j2 + 1) = ((j2 + 1 : Nat) : Int) from rfl]
          have hj : ((j2 + 1 : Nat) : Int) = (j2 : Int) + 1 := by push_cast; ring
          rw [hj]
          constructor <;> nlinarith [hdz, hmz]
  | negSucc m =>
      have hf : Int.fdiv (Int.negSucc m) (Int.negSucc n) =
          Int.ofNat ((m + 1) / (n + 1)) := rfl
      have hd := Nat.div_add_mod (m + 1) (n + 1)
      have hmod := Nat.mod_lt (m + 1) (Nat.succ_pos n)
      have hdz : ((n : Int) + 1) * (((m + 1) / (n + 1) : Nat) : Int) +
          (((m + 1) % (n + 1) : Nat) : Int) = (m : Int) + 1 := by exact_mod_cast hd
      have hmz : (((m + 1) % (n + 1) : Nat) : Int) < (n : Int) + 1 := by
        exact_mod_cast hmod
      rw [hf]
      simp only [Int.negSucc_eq]
      rw [show Int.ofNat ((m + 1) / (n + 1)) = (((m + 1) / (n + 1) : Nat) : Int) from rfl]
      constructor <;> nlinarith [hdz, hmz]

theorem mkScaled_ok (fam : FXfamily) (sv : Int) (z : FXnum)
    (h : FXnum.mkScaled fam sv = .ok z) :
    z = ⟨fam, sv⟩ ∧ fam.validate sv = true := by
  rw [FXnum.mkScaled] at h
  by_cases hv : fam.validate sv = true
  · rw [if_pos hv] at h
    cases h
    exact ⟨rfl, hv⟩
  · rw [if_neg hv] at h
    simp at h

theorem truediv_fx_ok (x o q : FXnum) (h : x.truediv (.fx o) = .ok q) :
    x.family = o.family ∧ o.scaledval ≠ 0 ∧
    q = ⟨x.family,
      Int.fdiv (x.scaledval * x.family.scale + x.family.roundup) o.scaledval⟩ := by
  rw [FXnum.truediv, FXnum.castOrFail] at h
  by_cases hf : x.family = o.family
  · rw [if_pos hf] at h
    simp only [Outcome.bind_eq, Outcome.bind_ok] at h
    by_cases hz : o.scaledval = 0
    · rw [if_pos hz] at h
      simp at h
    · rw [if_neg hz] at h
      exact ⟨hf, hz, (mkScaled_ok _ _ _ h).1⟩
  · rw [if_neg hf] at h
    simp at h

theorem sub_fx_ok (x o z : FXnum) (h : x.sub (.fx o) = .ok z) :
    x.family = o.family ∧ z = ⟨x.family, x.scaledval - o.scaledval⟩ := by
  rw [FXnum.sub, FXnum.castOrFail] at h
  by_cases hf : x.family = o.family
  · rw [if_pos hf] at h
    simp only [Outcome.bind_eq, Outcome.bind_ok] at h
    exact ⟨hf, (mkScaled_ok _ _ _ h).1⟩
  · rw [if_neg hf] at h
    simp at h

theorem rshift_ok (x : FXnum) (k : Nat) (z : FXnum) (h : x.rshift k = .ok z) :
    z = ⟨x.family, Int.fdiv x.scaledval (2 ^ k)⟩ :=
  (mkScaled_ok _ _ _ h).1

/-- Any successful run of the Newton iteration of `FXnum.sqrt` ends in a
state where the final correction `(rt - x/rt) >> 1` is zero: the result `r`
is a nonzero scaled value of `x`'s family with
`((r - (x*scale + roundup) fdiv r) fdiv 2) = 0`. -/
theorem sqrtLoop_ok (fuel : Nat) (x : FXnum) :
    ∀ rt r : FXnum, sqrtLoop fuel x rt = .ok r →
    r.family = x.family ∧ r.scaledval ≠ 0 ∧
    Int.fdiv (r.scaledval -
      Int.fdiv (x.scaledval * x.family.scale + x.family.roundup) r.scaledval) 2 = 0 := by
  induction fuel with
  | zero =>
      intro rt r h
      simp [sqrtLoop] at h
  | succ fuel ih =>
      intro rt r h
      rw [sqrtLoop] at h
      simp only [Outcome.bind_eq] at h
      cases hq : x.truediv (.fx rt) with
      | exn e => rw [hq] at h; simp at h
      | fuelout => rw [hq] at h; simp at h
      | ok q =>
        rw [hq] at h
        simp only [Outcome.bind_ok] at h
        obtain ⟨hfam, hoz, hqv⟩ := truediv_fx_ok x rt q hq
        cases hd : rt.sub (.fx q) with
        | exn e => rw [hd] at h; simp at h
        | fuelout => rw [hd] at h; simp at h
        | ok d =>
          rw [hd] at h
          simp only [Outcome.bind_ok] at h
          obtain ⟨-, hdv⟩ := sub_fx_ok rt q d hd
          cases hdelta : d.rshift 1 with
          | exn e => rw [hdelta] at h; simp at h
          | fuelout => rw [hdelta] at h; simp at h
          | ok delta =>
            rw [hdelta] at h
            simp only [Outcome.bind_ok] at h
            have hde := rshift_ok d 1 delta hdelta
            cases hrt2 : rt.sub (.fx delta) with
            | exn e => rw [hrt2] at h; simp at h
            | fuelout => rw [hrt2] at h; simp at h
            | ok rt2 =>
              rw [hrt2] at h
              simp only [Outcome.bind_ok] at h
              obtain ⟨-, hrt2v⟩ := sub_fx_ok rt delta rt2 hrt2
              by_cases hz : delta.scaledval = 0
              · rw [if_pos hz] at h
                have hr : rt2 = r := by
                  cases h
                  rfl
                subst hr
                subst hqv
                subst hdv
                subst hde
                simp only at hz
                rw [pow_one] at hz
                subst hrt2v
                simp only [pow_one] at hz ⊢
                rw [hz]
                simp only [sub_zero]
                exact ⟨hfam.symm, hoz, hz⟩
              · rw [if_neg hz] at h
                exact ih rt2 r h

set_option maxHeartbeats 2000000 in
/-- Arithmetic core of the sqrt accuracy bound: at an exit state of the
Newton loop, squaring the result lands within `2*(|r| + scale)` scaled
units of the scaled input, in units of the scale. -/
theorem sqrt_exit_bound (X S H r : Int) (hS : S = 2 * H) (hH : 0 < H) (hr : r ≠ 0)
    (hexit : Int.fdiv (r - Int.fdiv (X * S + H) r) 2 = 0) :
    S * |Int.fdiv (r * r + H) S - X| ≤ 2 * |r| + 2 * S := by
  set q := Int.fdiv (X * S + H) r with hq
  set p := Int.fdiv (r * r + H) S with hp
  have h2 : q = r ∨ q = r - 1 := by
    have hb := fdiv_pos_bounds (r - q) 2 (by norm_num)
    rw [hexit] at hb
    omega
  have hp1 : S * p ≤ r * r + H := (fdiv_pos_bounds (r * r + H) S (by omega)).1
  have hp2 : r * r + H < S * p + S := (fdiv_pos_bounds (r * r + H) S (by omega)).2
  have hrho : ∃ ρ : Int, X * S + H = r * q + ρ ∧
      ((0 < r ∧ 0 ≤ ρ ∧ ρ < r) ∨ (r < 0 ∧ r < ρ ∧ ρ ≤ 0)) := by
    rcases lt_or_gt_of_ne hr with hneg | hpos
    · have hb := fdiv_neg_bounds (X * S + H) r hneg
      rw [← hq] at hb
      exact ⟨X * S + H - r * q, by ring, Or.inr ⟨hneg, by omega, by omega⟩⟩
    · have hb := fdiv_pos_bounds (X * S + H) r hpos
      rw [← hq] at hb
      exact ⟨X * S + H - r * q, by ring, Or.inl ⟨hpos, by omega, by omega⟩⟩
  obtain ⟨ρ, hAeq, hcase⟩ := hrho
  have hrq : r * q = r * r ∨ r * q = r * r - r := by
    rcases h2 with h | h
    · left; rw [h]
    · right; rw [h]; ring
  rcases abs_cases r with ⟨har, hsr⟩ | ⟨har, hsr⟩ <;>
    rcases abs_cases (p - X) with ⟨hap, hsp⟩ | ⟨hap, hsp⟩ <;>
      rw [har, hap] <;>
        rcases hrq with hrq | hrq <;>
          rcases hcase with ⟨h1, h2a, h2b⟩ | ⟨h1, h2a, h2b⟩ <;>
            linarith [hp1, hp2, hAeq, hrq, hsr, hsp, hH, hS]

/-- C5 (amended): `sqrt` of a negative value raises `FXdomainError`; for a
non-negative value, if the Newton iteration terminates with result `r` and
`r*r` evaluates to `p`, then `p` agrees with `x` to within
`2*(|r| + 1)` resolution steps — i.e. `scale * |p - x| ≤ 2*|r| + 2*scale`
in scaled units — rather than to within the resolution itself. -/
theorem sqrt_square_error_bound (fuel : Nat) (x r p : FXnum)
    (hf : 1 ≤ x.family.fraction_bits) :
    (x.scaledval < 0 → FXnum.sqrt fuel x = .exn .FXdomainError) ∧
    (0 ≤ x.scaledval → FXnum.sqrt fuel x = .ok r → r.mul (.fx r) = .ok p →
      x.family.scale * |p.scaledval - x.scaledval| ≤
        2 * |r.scaledval| + 2 * x.family.scale) := by
  have hSH : x.family.scale = 2 * x.family.roundup := by
    have h1 : x.family.fraction_bits = (x.family.fraction_bits - 1) + 1 := by omega
    rw [FXfamily.scale, FXfamily.roundup, pyShiftL_one, pyShiftL_one]
    conv_lhs => rw [h1]
    rw [pow_succ]
    ring
  have hHpos : (0 : Int) < x.family.roundup := pyShiftL_one_pos _
  have hSpos : (0 : Int) < x.family.scale := pyShiftL_one_pos _
  constructor
  · intro h
    rw [FXnum.sqrt, if_pos h]
  · intro hx hs hm
    by_cases hx0 : x.scaledval = 0
    · rw [FXnum.sqrt, if_neg (by omega), if_pos hx0] at hs
      have hrx : x = r := by cases hs; rfl
      subst hrx
      rw [FXnum.mul, FXnum.castOrFail, if_pos rfl] at hm
      simp only [Outcome.bind_eq, Outcome.bind_ok] at hm
      obtain ⟨hpv, -⟩ := mkScaled_ok _ _ _ hm
      subst hpv
      have hz : pyFloorDiv (x.scaledval * x.scaledval + x.family.roundup)
          x.family.scale = 0 := by
        rw [hx0, pyFloorDiv,
          show (0 : Int) * 0 + x.family.roundup = x.family.roundup by ring,
          Int.fdiv_eq_ediv _ hSpos.le]
        exact Int.ediv_eq_zero_of_lt hHpos.le (by omega)
      simp only [hz]
      rw [hx0]
      norm_num
      linarith [hSpos]
    · rw [FXnum.sqrt, if_neg (by omega), if_neg hx0] at hs
      simp only [Outcome.bind_eq] at hs
      cases h0 : FXnum.mkScaled x.family (pyShiftL 1 (x.family.fraction_bits / 2)) with
      | exn e => rw [h0] at hs; simp at hs
      | fuelout => rw [h0] at hs; simp at hs
      | ok rt0 =>
        rw [h0] at hs
        simp only [Outcome.bind_ok] at hs
        obtain ⟨hrf, hrnz, hexit⟩ := sqrtLoop_ok fuel x _ r hs
        rw [FXnum.mul, FXnum.castOrFail, if_pos rfl] at hm
        simp only [Outcome.bind_eq, Outcome.bind_ok] at hm
        obtain ⟨hpv, -⟩ := mkScaled_ok _ _ _ hm
        subst hpv
        simp only [hrf]
        exact sqrt_exit_bound x.scaledval x.family.scale x.family.roundup
          r.scaledval hSH hHpos hrnz hexit

set_option maxRecDepth 8000 in
/-- Counterexample to C5 as stated: at 8 fraction bits, `sqrt(3.0)`
(scaled 768) terminates with scaled root 444, whose square evaluates to
scaled 770; the difference from the input is 2 scaled units, i.e.
`2 * 2^-8`, which exceeds the descriptor's resolution `2^-8`. -/
theorem sqrt_square_exceeds_resolution :
    FXnum.sqrt 99 ⟨⟨0, 8, none⟩, 768⟩ = .ok ⟨⟨0, 8, none⟩, 444⟩ ∧
    (FXnum.mk ⟨0, 8, none⟩ 444).mul (.fx ⟨⟨0, 8, none⟩, 444⟩) =
      .ok ⟨⟨0, 8, none⟩, 770⟩ ∧
    ¬(|(770 : Int) - 768| ≤ 1) := by
  refine ⟨by decide, by decide, by decide⟩

set_option maxRecDepth 8000 in
/-- Witness for C5's amended theorem at the same concrete run, plus the
negative-input branch. -/
theorem sqrt_square_error_bound_witness :
    (FXfamily.mk 0 8 none).scale *
        |(FXnum.mk ⟨0, 8, none⟩ 770).scaledval - (FXnum.mk ⟨0, 8, none⟩ 768).scaledval| ≤
      2 * |(FXnum.mk ⟨0, 8, none⟩ 444).scaledval| + 2 * (FXfamily.mk 0 8 none).scale ∧
    FXnum.sqrt 7 ⟨⟨0, 8, none⟩, -768⟩ = .exn .FXdomainError :=
  ⟨(sqrt_square_error_bound 99 ⟨⟨0, 8, none⟩, 768⟩ ⟨⟨0, 8, none⟩, 444⟩
      ⟨⟨0, 8, none⟩, 770⟩ (by decide)).2 (by decide) (by decide) (by decide),
   (sqrt_square_error_bound 7 ⟨⟨0, 8, none⟩, -768⟩ ⟨⟨0, 8, none⟩, 444⟩
      ⟨⟨0, 8, none⟩, 770⟩ (by decide)).1 (by decide)⟩
